import Mathlib

/-!
Verification of the mask scoring, selection, inventory, and refinement logic of
`segmenter.py` (class `Segmenter`), via a shallow embedding.

A binary mask is embedded as `List (List Bool)` (row-major 2D array); the mask
perimeter is an external primitive (`skimage.measure.perimeter`) and is passed
as a real-valued parameter or oracle.  Floating-point arithmetic is modelled by
exact real arithmetic, NumPy integer truncation of nonnegative means by natural
division, and Python's `-inf` initial best score by `⊥ : EReal`.
-/

/-- A binary mask: row-major 2D boolean array. -/
abbrev BMask : Type := List (List Bool)

/-- `mask.sum()`: number of `true` pixels of a mask. -/
def mask_sum (mask : BMask) : ℕ :=
  (mask.map (fun row => row.countP (fun b => b))).sum

/-- Lines 128–143 of `_compute_mask_metrics`: compactness of a mask with
`mask_area` true pixels and externally computed perimeter `mask_perimeter`.
`raw_compactness = 2·√(π·area)/peri` when both are positive, else 0; the
result is `min raw_compactness 1`. -/
noncomputable def compactness (mask_area : ℕ) (mask_perimeter : ℝ) : ℝ :=
  min
    (if 0 < mask_area then
      if 0 < mask_perimeter then
        2 * Real.sqrt (Real.pi * mask_area) / mask_perimeter
      else 0
    else 0)
    1

/-- Line 148 of `_compute_mask_metrics`: `normalized_area = mask_area / (height*width)`. -/
noncomputable def normalized_area (mask_area height width : ℕ) : ℝ :=
  (mask_area : ℝ) / ((height * width : ℕ) : ℝ)

/-- Lines 145–160 of `_compute_mask_metrics`: the size penalty.
`normalized_area` plus a quartic small-mask penalty (below 0.001) and a
quartic large-mask penalty (above 0.5). -/
noncomputable def size_penalty (mask_area height width : ℕ) : ℝ :=
  normalized_area mask_area height width
    + (if normalized_area mask_area height width < 0.001 then
        normalized_area mask_area height width ^ 4 else 0)
    + (if 0.5 < normalized_area mask_area height width then
        (normalized_area mask_area height width - 0.4) ^ 4 else 0)

/-- `_compute_mask_metrics(mask, score)`: returns the triple
(compactness, size_penalty, score); the perimeter of the mask is supplied by
the external perimeter primitive. -/
noncomputable def compute_mask_metrics (mask : BMask) (mask_perimeter score : ℝ)
    (height width : ℕ) : ℝ × ℝ × ℝ :=
  (compactness (mask_sum mask) mask_perimeter,
   size_penalty (mask_sum mask) height width,
   score)

/-- The default weight triple of `_weighted_mask_selection`. -/
noncomputable def default_weights : ℝ × ℝ × ℝ := (1.0, 0.8, 1.4)

/-- Lines 176–180 of `_weighted_mask_selection`: the weighted score of one
candidate, `w_s * sam_score + w_c * log (1 + compactness) - w_a * size_penalty`,
with the metrics taken from `_compute_mask_metrics`. -/
noncomputable def weighted_score (weights : ℝ × ℝ × ℝ) (mask : BMask)
    (mask_perimeter sam_score : ℝ) (height width : ℕ) : ℝ :=
  weights.1 * (compute_mask_metrics mask mask_perimeter sam_score height width).2.2
    + weights.2.1 * Real.log (1 + (compute_mask_metrics mask mask_perimeter sam_score height width).1)
    - weights.2.2 * (compute_mask_metrics mask mask_perimeter sam_score height width).2.1

/-- The score of candidate `i` inside the `_weighted_mask_selection` loop:
`masks[i]` with `scores[i]`, perimeter supplied by the external oracle. -/
noncomputable def candidate_score (peri : BMask → ℝ) (height width : ℕ)
    (masks : List BMask) (scores : List ℝ) (weights : ℝ × ℝ × ℝ) (i : ℕ) : ℝ :=
  weighted_score weights (masks.getD i []) (peri (masks.getD i []))
    (scores.getD i 0) height width

/-- The selection loop of `_weighted_mask_selection` (lines 166–187): iterate
over candidate indices, keeping the index of the first strict maximum.
`best_score` starts at `-inf` (`⊥ : EReal`), `best_index` at `-1`. -/
noncomputable def selection_loop (score : ℕ → ℝ) :
    List ℕ → EReal → Int → Int
  | [], _, best_index => best_index
  | i :: rest, best_score, best_index =>
      if best_score < ((score i : ℝ) : EReal) then
        selection_loop score rest ((score i : ℝ) : EReal) (i : Int)
      else
        selection_loop score rest best_score best_index

/-- `_weighted_mask_selection(masks, scores, weights)`: runs the selection
loop over all candidate indices and returns the best index (`-1` when there
are no candidates). -/
noncomputable def weighted_mask_selection (peri : BMask → ℝ) (height width : ℕ)
    (masks : List BMask) (scores : List ℝ) (weights : ℝ × ℝ × ℝ) : Int :=
  selection_loop (candidate_score peri height width masks scores weights)
    (List.range masks.length) ⊥ (-1)

/-! ### Basic facts about the geometry metrics -/

lemma normalized_area_nonneg (a h w : ℕ) : 0 ≤ normalized_area a h w := by
  unfold normalized_area
  positivity

lemma normalized_area_mono (a1 a2 h w : ℕ) (hle : a1 ≤ a2) :
    normalized_area a1 h w ≤ normalized_area a2 h w := by
  unfold normalized_area
  rcases Nat.eq_zero_or_pos (h * w) with h0 | hpos
  · rw [h0]
    simp
  · have hc : (0 : ℝ) < ((h * w : ℕ) : ℝ) := by exact_mod_cast hpos
    exact (div_le_div_right hc).mpr (by exact_mod_cast hle)

lemma size_penalty_eq_small (a h w : ℕ) (hna : normalized_area a h w < 0.001) :
    size_penalty a h w = normalized_area a h w + normalized_area a h w ^ 4 := by
  have h2 : ¬ (0.5 < normalized_area a h w) := not_lt.mpr (hna.le.trans (by norm_num))
  unfold size_penalty
  rw [if_pos hna, if_neg h2, add_zero]

lemma size_penalty_eq_mid (a h w : ℕ) (h1 : 0.001 ≤ normalized_area a h w)
    (h2 : normalized_area a h w ≤ 0.5) :
    size_penalty a h w = normalized_area a h w := by
  unfold size_penalty
  rw [if_neg (not_lt.mpr h1), if_neg (not_lt.mpr h2), add_zero, add_zero]

lemma size_penalty_eq_large (a h w : ℕ) (h1 : 0.5 < normalized_area a h w) :
    size_penalty a h w
      = normalized_area a h w + (normalized_area a h w - 0.4) ^ 4 := by
  have h2 : ¬ (normalized_area a h w < 0.001) :=
    not_lt.mpr (le_trans (by norm_num) h1.le)
  unfold size_penalty
  rw [if_neg h2, if_pos h1, add_zero]

lemma size_penalty_nonneg (a h w : ℕ) : 0 ≤ size_penalty a h w := by
  have hna := normalized_area_nonneg a h w
  have t1 : (0:ℝ) ≤
      if normalized_area a h w < 0.001 then normalized_area a h w ^ 4 else 0 := by
    split
    · positivity
    · exact le_refl 0
  have t2 : (0:ℝ) ≤
      if 0.5 < normalized_area a h w then (normalized_area a h w - 0.4) ^ 4 else 0 := by
    split
    · positivity
    · exact le_refl 0
  unfold size_penalty
  linarith

lemma le_size_penalty (a h w : ℕ) :
    normalized_area a h w ≤ size_penalty a h w := by
  have t1 : (0:ℝ) ≤
      if normalized_area a h w < 0.001 then normalized_area a h w ^ 4 else 0 := by
    split
    · positivity
    · exact le_refl 0
  have t2 : (0:ℝ) ≤
      if 0.5 < normalized_area a h w then (normalized_area a h w - 0.4) ^ 4 else 0 := by
    split
    · positivity
    · exact le_refl 0
  unfold size_penalty
  linarith

/-! ### Claim theorems for the scorer and the geometry metrics -/

/-- C1: the weighted score of `_weighted_mask_selection` equals
`w_score * confidence + w_compact * ln (1 + compactness) - w_size * size_penalty`,
with `compactness` and `size_penalty` the geometry metrics of
`_compute_mask_metrics`, and the default weight triple is `(1.0, 0.8, 1.4)`. -/
theorem weighted_score_formula (weights : ℝ × ℝ × ℝ) (mask : BMask)
    (mask_perimeter confidence : ℝ) (height width : ℕ) :
    weighted_score weights mask mask_perimeter confidence height width =
      weights.1 * confidence
        + weights.2.1 * Real.log (1 + compactness (mask_sum mask) mask_perimeter)
        - weights.2.2 * size_penalty (mask_sum mask) height width ∧
    default_weights = (1.0, 0.8, 1.4) ∧ default_weights = (1, 4/5, 7/5) := by
  refine ⟨rfl, rfl, ?_⟩
  unfold default_weights
  norm_num

/-- C3: compactness is 0 for an empty mask, 0 when the external perimeter is 0,
`min (2·√(π·area)/peri) 1` otherwise, and always lies in `[0, 1]`. -/
theorem compactness_cases_and_range (mask_area : ℕ) (mask_perimeter : ℝ) :
    (mask_area = 0 → compactness mask_area mask_perimeter = 0) ∧
    (0 < mask_area → mask_perimeter = 0 → compactness mask_area mask_perimeter = 0) ∧
    (0 < mask_area → 0 < mask_perimeter →
      compactness mask_area mask_perimeter =
        min (2 * Real.sqrt (Real.pi * mask_area) / mask_perimeter) 1) ∧
    0 ≤ compactness mask_area mask_perimeter ∧
    compactness mask_area mask_perimeter ≤ 1 := by
  unfold compactness
  refine ⟨?_, ?_, ?_, ?_, min_le_right _ _⟩
  · intro h
    rw [if_neg (by omega)]
    simp
  · intro h1 h2
    rw [if_pos h1, if_neg (by rw [h2]; exact lt_irrefl 0)]
    simp
  · intro h1 h2
    rw [if_pos h1, if_pos h2]
  · refine le_min ?_ zero_le_one
    split
    · split
      · positivity
      · exact le_refl 0
    · exact le_refl 0

/-- Witness for C3: evaluated at an empty mask and at area 4 with perimeter 3. -/
theorem compactness_cases_and_range_witness :
    compactness 0 1 = 0 ∧
    compactness 4 3 = min (2 * Real.sqrt (Real.pi * ((4:ℕ):ℝ)) / 3) 1 :=
  ⟨(compactness_cases_and_range 0 1).1 rfl,
   (compactness_cases_and_range 4 3).2.2.1 (by norm_num) (by norm_num)⟩

/-- C4: the size penalty equals `na + na⁴` for `na < 0.001`, `na` for
`0.001 ≤ na ≤ 0.5`, and `na + (na - 0.4)⁴` for `na > 0.5`, where
`na = area / (height·width)`; it is nonnegative. -/
theorem size_penalty_cases (mask_area height width : ℕ)
    (hdim : 0 < height * width) :
    (normalized_area mask_area height width < 0.001 →
      size_penalty mask_area height width =
        normalized_area mask_area height width
          + normalized_area mask_area height width ^ 4) ∧
    (0.001 ≤ normalized_area mask_area height width →
      normalized_area mask_area height width ≤ 0.5 →
      size_penalty mask_area height width = normalized_area mask_area height width) ∧
    (0.5 < normalized_area mask_area height width →
      size_penalty mask_area height width =
        normalized_area mask_area height width
          + (normalized_area mask_area height width - 0.4) ^ 4) ∧
    0 ≤ size_penalty mask_area height width :=
  ⟨size_penalty_eq_small mask_area height width,
   size_penalty_eq_mid mask_area height width,
   size_penalty_eq_large mask_area height width,
   size_penalty_nonneg mask_area height width⟩

/-- Witness for C4: one pixel of a 10×10 image, normalized area 1/100. -/
theorem size_penalty_cases_witness :
    0 < 10 * 10 ∧ size_penalty 1 10 10 = normalized_area 1 10 10 :=
  ⟨by norm_num,
   (size_penalty_cases 1 10 10 (by norm_num)).2.1
     (by unfold normalized_area; norm_num)
     (by unfold normalized_area; norm_num)⟩

/-! ### The selection loop: first index of the maximum -/

lemma selection_loop_spec (f : ℕ → ℝ) :
    ∀ (k s b : ℕ), b < s →
      (∀ j, j < s → f j ≤ f b) → (∀ j, j < b → f j < f b) →
      ∃ i : ℕ,
        selection_loop f (List.range' s k) ((f b : ℝ) : EReal) (b : Int) = (i : Int) ∧
        i < s + k ∧ (∀ j, j < s + k → f j ≤ f i) ∧ (∀ j, j < i → f j < f i) := by
  intro k
  induction k with
  | zero =>
      intro s b hbs hmax hstrict
      exact ⟨b, rfl, by omega, fun j hj => hmax j (by omega), hstrict⟩
  | succ n ih =>
      intro s b hbs hmax hstrict
      rw [List.range'_succ s n 1]
      by_cases hc : ((f b : ℝ) : EReal) < ((f s : ℝ) : EReal)
      · have hlt : f b < f s := EReal.coe_lt_coe_iff.mp hc
        simp only [selection_loop]
        rw [if_pos hc]
        obtain ⟨i, h1, h2, h3, h4⟩ := ih (s + 1) s (by omega)
          (fun j hj => by
            rcases Nat.lt_succ_iff_lt_or_eq.mp hj with h | h
            · exact (hmax j h).trans hlt.le
            · rw [h])
          (fun j hj => lt_of_le_of_lt (hmax j hj) hlt)
        exact ⟨i, h1, by omega, fun j hj => h3 j (by omega), h4⟩
      · have hle : f s ≤ f b := le_of_not_lt (fun h => hc (EReal.coe_lt_coe_iff.mpr h))
        simp only [selection_loop]
        rw [if_neg hc]
        obtain ⟨i, h1, h2, h3, h4⟩ := ih (s + 1) b (by omega)
          (fun j hj => by
            rcases Nat.lt_succ_iff_lt_or_eq.mp hj with h | h
            · exact hmax j h
            · rw [h]; exact hle)
          hstrict
        exact ⟨i, h1, by omega, fun j hj => h3 j (by omega), h4⟩

lemma weighted_mask_selection_spec (peri : BMask → ℝ) (height width : ℕ)
    (masks : List BMask) (scores : List ℝ) (weights : ℝ × ℝ × ℝ)
    (hne : masks ≠ []) :
    ∃ i : ℕ,
      weighted_mask_selection peri height width masks scores weights = (i : Int) ∧
      i < masks.length ∧
      (∀ j, j < masks.length →
        candidate_score peri height width masks scores weights j ≤
          candidate_score peri height width masks scores weights i) ∧
      (∀ j, j < i →
        candidate_score peri height width masks scores weights j <
          candidate_score peri height width masks scores weights i) := by
  obtain ⟨n, hn⟩ : ∃ n, masks.length = n + 1 :=
    Nat.exists_eq_succ_of_ne_zero (fun h => hne (List.length_eq_zero.mp h))
  unfold weighted_mask_selection
  rw [hn, List.range_eq_range', List.range'_succ 0 n 1]
  simp only [selection_loop]
  rw [if_pos (EReal.bot_lt_coe _)]
  obtain ⟨i, h1, h2, h3, h4⟩ :=
    selection_loop_spec (candidate_score peri height width masks scores weights)
      n (0 + 1) 0 (by omega)
      (fun j hj => by
        have hj0 : j = 0 := by omega
        rw [hj0])
      (fun j hj => absurd hj (by omega))
  refine ⟨i, ?_, by omega, fun j hj => h3 j (by omega), h4⟩
  rw [← h1]

/-- C2: on a non-empty candidate set, `_weighted_mask_selection` returns the
least index attaining the maximum weighted score; with one candidate it
returns 0, and with two candidates of equal score it returns 0. -/
theorem weighted_mask_selection_argmax (peri : BMask → ℝ) (height width : ℕ)
    (masks : List BMask) (scores : List ℝ) (weights : ℝ × ℝ × ℝ)
    (hne : masks ≠ []) (hlen : masks.length = scores.length) :
    (∃ i : ℕ,
      weighted_mask_selection peri height width masks scores weights = (i : Int) ∧
      i < masks.length ∧
      (∀ j, j < masks.length →
        candidate_score peri height width masks scores weights j ≤
          candidate_score peri height width masks scores weights i) ∧
      (∀ j, j < i →
        candidate_score peri height width masks scores weights j <
          candidate_score peri height width masks scores weights i)) ∧
    (masks.length = 1 →
      weighted_mask_selection peri height width masks scores weights = 0) ∧
    (masks.length = 2 →
      candidate_score peri height width masks scores weights 0 =
        candidate_score peri height width masks scores weights 1 →
      weighted_mask_selection peri height width masks scores weights = 0) := by
  obtain ⟨i, h1, h2, h3, h4⟩ :=
    weighted_mask_selection_spec peri height width masks scores weights hne
  refine ⟨⟨i, h1, h2, h3, h4⟩, ?_, ?_⟩
  · intro hone
    rw [hone] at h2
    have : i = 0 := by omega
    rw [h1, this]
    norm_num
  · intro htwo heq
    rw [htwo] at h2
    have hi0 : i = 0 := by
      by_contra hne0
      have hi1 : i = 1 := by omega
      have hlt := h4 0 (by omega)
      rw [hi1] at hlt
      rw [heq] at hlt
      exact lt_irrefl _ hlt
    rw [h1, hi0]
    norm_num

/-- Witness for C2: a single candidate is selected at index 0. -/
theorem weighted_mask_selection_argmax_witness :
    ([[[true]]] : List BMask) ≠ [] ∧
    weighted_mask_selection (fun _ => 1) 1 1 [[[true]]] [1] default_weights = 0 := by
  have h := weighted_mask_selection_argmax (fun _ => 1) 1 1 [[[true]]] [1]
    default_weights (by simp) (by simp)
  exact ⟨by simp, h.2.1 rfl⟩

/-- C9: with zero candidates `_weighted_mask_selection` returns the sentinel
`-1`, which is negative and hence not an in-range index into any candidate
sequence; no indexing is performed. -/
theorem weighted_mask_selection_empty (peri : BMask → ℝ) (height width : ℕ)
    (weights : ℝ × ℝ × ℝ) :
    weighted_mask_selection peri height width [] [] weights = -1 ∧
    (-1 : Int) < 0 ∧
    (∀ n : ℕ, ¬ (0 ≤ (-1 : Int) ∧ (-1 : Int) < (n : Int))) := by
  refine ⟨rfl, by norm_num, ?_⟩
  intro n h
  exact absurd h.1 (by norm_num)

/-- Witness for C9 at a concrete oracle and weights. -/
theorem weighted_mask_selection_empty_witness :
    weighted_mask_selection (fun _ => 0) 1 1 [] [] default_weights = -1 :=
  (weighted_mask_selection_empty (fun _ => 0) 1 1 default_weights).1

/-! ### Monotonicity of the size penalty -/

lemma size_penalty_mono_from_mid (a1 a2 h w : ℕ) (hle : a1 ≤ a2)
    (hcx : 0.001 ≤ normalized_area a1 h w) :
    size_penalty a1 h w ≤ size_penalty a2 h w := by
  have hxy := normalized_area_mono a1 a2 h w hle
  have hcy : (0.001:ℝ) ≤ normalized_area a2 h w := le_trans hcx hxy
  by_cases hx5 : 0.5 < normalized_area a1 h w
  · have hy5 : 0.5 < normalized_area a2 h w := lt_of_lt_of_le hx5 hxy
    rw [size_penalty_eq_large a1 h w hx5, size_penalty_eq_large a2 h w hy5]
    have hq : (normalized_area a1 h w - 0.4) ^ 4 ≤ (normalized_area a2 h w - 0.4) ^ 4 :=
      pow_le_pow_left₀ (by linarith) (by linarith) 4
    linarith
  · push_neg at hx5
    rw [size_penalty_eq_mid a1 h w hcx hx5]
    exact le_trans hxy (le_size_penalty a2 h w)

/-- Counterexample to C5: on a 2000000×1000000 image, the mask of area
1999999999 (normalized area just below 0.001) receives a strictly larger size
penalty than the mask of area 2000000000 (normalized area exactly 0.001),
because the quartic small-mask term is dropped at the boundary. -/
theorem size_penalty_not_monotone :
    (1999999999 : ℕ) ≤ 2000000000 ∧
    size_penalty 2000000000 2000000 1000000 <
      size_penalty 1999999999 2000000 1000000 := by
  constructor
  · norm_num
  · have hna1 : normalized_area 1999999999 2000000 1000000 < 0.001 := by
      unfold normalized_area; norm_num
    have hna2lo : (0.001:ℝ) ≤ normalized_area 2000000000 2000000 1000000 := by
      unfold normalized_area; norm_num
    have hna2hi : normalized_area 2000000000 2000000 1000000 ≤ 0.5 := by
      unfold normalized_area; norm_num
    rw [size_penalty_eq_small _ _ _ hna1, size_penalty_eq_mid _ _ _ hna2lo hna2hi]
    unfold normalized_area
    norm_num

/-- C5 (amended): the size penalty is monotone in the normalized area within
each regime and across the 0.5 boundary; across the 0.001 boundary it is
monotone whenever the gap covers the dropped small-mask term, i.e. when
`na₁ + na₁⁴ ≤ na₂` (and in general whenever both areas lie on the same side
of 0.001). -/
theorem size_penalty_mono_amended (a1 a2 h w : ℕ) (hle : a1 ≤ a2)
    (hcross : normalized_area a2 h w < 0.001 ∨
      0.001 ≤ normalized_area a1 h w ∨
      normalized_area a1 h w + normalized_area a1 h w ^ 4 ≤ normalized_area a2 h w) :
    size_penalty a1 h w ≤ size_penalty a2 h w := by
  have hx := normalized_area_nonneg a1 h w
  have hxy := normalized_area_mono a1 a2 h w hle
  rcases hcross with hcy | hcx | hgap
  · have hcx : normalized_area a1 h w < 0.001 := lt_of_le_of_lt hxy hcy
    rw [size_penalty_eq_small a1 h w hcx, size_penalty_eq_small a2 h w hcy]
    have hq : normalized_area a1 h w ^ 4 ≤ normalized_area a2 h w ^ 4 :=
      pow_le_pow_left₀ hx hxy 4
    linarith
  · exact size_penalty_mono_from_mid a1 a2 h w hle hcx
  · by_cases hcx : normalized_area a1 h w < 0.001
    · rw [size_penalty_eq_small a1 h w hcx]
      exact le_trans hgap (le_size_penalty a2 h w)
    · push_neg at hcx
      exact size_penalty_mono_from_mid a1 a2 h w hle hcx

/-- Witness for the amended C5: areas 1 ≤ 2 on a 10×10 image. -/
theorem size_penalty_mono_amended_witness :
    (1:ℕ) ≤ 2 ∧ size_penalty 1 10 10 ≤ size_penalty 2 10 10 :=
  ⟨by norm_num,
   size_penalty_mono_amended 1 2 10 10 (by norm_num)
     (Or.inr (Or.inl (by unfold normalized_area; norm_num)))⟩

/-! ### The refinement orchestrator `propagate_points` -/

/-- Python/NumPy sequence indexing `l[i]`: a negative index counts from the
end; out-of-range access is modelled by a default element. -/
def py_get {α : Type _} (l : List α) (d : α) (i : Int) : α :=
  if i < 0 then l.getD (l.length - (-i).toNat) d else l.getD i.toNat d

/-- `propagate_points(points, labels)` (lines 230–259): call the external
predictor, select the best mask, feed the selected candidate's logit back as
`mask_input`, call the predictor again, and return the best mask of the second
round.  The predictor is a black box keyed on its `mask_input` argument (the
point prompts are fixed); the second component of the result is the log of
`mask_input` arguments of the predictor calls, in order. -/
noncomputable def propagate_points {L : Type _} (default_logit : L)
    (peri : BMask → ℝ) (height width : ℕ)
    (predict : Option L → List BMask × List ℝ × List L) :
    BMask × List (Option L) :=
  let r1 := predict none
  let selected_mask :=
    weighted_mask_selection peri height width r1.1 r1.2.1 default_weights
  let mask_input := py_get r1.2.2 default_logit selected_mask
  let r2 := predict (some mask_input)
  let i1 := weighted_mask_selection peri height width r2.1 r2.2.1 default_weights
  (py_get r2.1 [] i1, [none, some mask_input])

/-- C6: when both predictor calls return non-empty candidate sets,
`propagate_points` makes exactly the two predictor calls recorded in its log —
the first with no `mask_input`, the second with the round-1 winner's logit
`logits[i0]` — and returns `masks[i1]` of the second round, where `i0` and
`i1` are the mask selector's choices over the two rounds. -/
theorem propagate_points_spec {L : Type} (default_logit : L) (peri : BMask → ℝ)
    (height width : ℕ) (predict : Option L → List BMask × List ℝ × List L)
    (h1 : (predict none).1 ≠ [])
    (h2 : ∀ x, (predict (some x)).1 ≠ []) :
    ∃ i0 i1 : ℕ,
      weighted_mask_selection peri height width (predict none).1 (predict none).2.1
        default_weights = (i0 : Int) ∧
      i0 < (predict none).1.length ∧
      (propagate_points default_logit peri height width predict).2 =
        [none, some (py_get (predict none).2.2 default_logit (i0 : Int))] ∧
      weighted_mask_selection peri height width
        (predict (some (py_get (predict none).2.2 default_logit (i0 : Int)))).1
        (predict (some (py_get (predict none).2.2 default_logit (i0 : Int)))).2.1
        default_weights = (i1 : Int) ∧
      i1 < (predict (some (py_get (predict none).2.2 default_logit (i0 : Int)))).1.length ∧
      (propagate_points default_logit peri height width predict).1 =
        py_get (predict (some (py_get (predict none).2.2 default_logit (i0 : Int)))).1
          [] (i1 : Int) := by
  obtain ⟨i0, hi0, hi0lt, -, -⟩ :=
    weighted_mask_selection_spec peri height width (predict none).1
      (predict none).2.1 default_weights h1
  obtain ⟨i1, hi1, hi1lt, -, -⟩ :=
    weighted_mask_selection_spec peri height width
      (predict (some (py_get (predict none).2.2 default_logit (i0 : Int)))).1
      (predict (some (py_get (predict none).2.2 default_logit (i0 : Int)))).2.1
      default_weights (h2 _)
  refine ⟨i0, i1, hi0, hi0lt, ?_, hi1, hi1lt, ?_⟩
  · simp only [propagate_points]
    rw [hi0]
  · simp only [propagate_points]
    rw [hi0, hi1]

/-- A stub predictor: one candidate mask, score 1, logit 0, on every call. -/
noncomputable def stub_predict : Option ℕ → List BMask × List ℝ × List ℕ :=
  fun _ => ([[[true]]], [1], [0])

/-- Witness for C6 at the stub predictor. -/
theorem propagate_points_spec_witness :
    (stub_predict none).1 ≠ [] ∧
    (∃ i0 i1 : ℕ,
      weighted_mask_selection (fun _ => 1) 1 1 (stub_predict none).1
        (stub_predict none).2.1 default_weights = (i0 : Int) ∧
      i0 < (stub_predict none).1.length ∧
      (propagate_points 0 (fun _ => 1) 1 1 stub_predict).2 =
        [none, some (py_get (stub_predict none).2.2 0 (i0 : Int))] ∧
      weighted_mask_selection (fun _ => 1) 1 1
        (stub_predict (some (py_get (stub_predict none).2.2 0 (i0 : Int)))).1
        (stub_predict (some (py_get (stub_predict none).2.2 0 (i0 : Int)))).2.1
        default_weights = (i1 : Int) ∧
      i1 < (stub_predict (some (py_get (stub_predict none).2.2 0 (i0 : Int)))).1.length ∧
      (propagate_points 0 (fun _ => 1) 1 1 stub_predict).1 =
        py_get (stub_predict (some (py_get (stub_predict none).2.2 0 (i0 : Int)))).1
          [] (i1 : Int)) :=
  ⟨by simp [stub_predict],
   propagate_points_spec 0 (fun _ => 1) 1 1 stub_predict
     (by simp [stub_predict]) (fun x => by simp [stub_predict])⟩

/-! ### Mask inventory and session state (`get_best_point`) -/

/-- A SAM-generated mask record: `area` metadata and binary `segmentation`. -/
structure SamMask where
  area : ℕ
  segmentation : BMask
deriving DecidableEq

/-- `largest_area` during the `get_best_point` scan: the area of the current
best candidate, 0 when no candidate has been found yet (`largest_mask = None`). -/
def best_area_of : Option (ℕ × SamMask) → ℕ
  | none => 0
  | some p => p.2.area

/-- The scan of `get_best_point` (lines 198–209): iterate over the indexed
masks, retaining the first unselected mask of strictly largest positive area.
The selection state is the set of inventory indices of already-selected masks
(the stable-index port of CPython `id`-based identity prescribed by the
design notes, with pairwise-distinct identities). -/
def find_largest_aux (selected : Finset ℕ) :
    List (ℕ × SamMask) → Option (ℕ × SamMask) → Option (ℕ × SamMask)
  | [], best => best
  | p :: rest, best =>
      if p.1 ∉ selected then
        if best_area_of best < p.2.area then
          find_largest_aux selected rest (some p)
        else find_largest_aux selected rest best
      else find_largest_aux selected rest best

/-- The largest unselected mask of the inventory, with its index. -/
def find_largest (masks : List SamMask) (selected : Finset ℕ) :
    Option (ℕ × SamMask) :=
  find_largest_aux selected (List.enumFrom 0 masks) none

/-- Coordinates of the true pixels of one row at row index `r`, the first
element of `row` sitting at column `c`. -/
def row_pixels (r : ℕ) : ℕ → List Bool → List (ℕ × ℕ)
  | _, [] => []
  | c, b :: bs =>
      if b then (r, c) :: row_pixels r (c+1) bs else row_pixels r (c+1) bs

/-- Row-major coordinates of all true pixels, the first row of `seg` sitting
at row index `r`. -/
def true_pixels_from (r : ℕ) : BMask → List (ℕ × ℕ)
  | [] => []
  | row :: rest => row_pixels r 0 row ++ true_pixels_from (r+1) rest

/-- `list(zip(*segmentation.nonzero()))`: row-major coordinates of all true
pixels of the segmentation. -/
def true_pixels (seg : BMask) : List (ℕ × ℕ) := true_pixels_from 0 seg

/-- `tuple(map(int, np.mean(indices, axis=0)))`: coordinate-wise mean of the
true-pixel coordinates, truncated to integer (natural division, since the
coordinates are nonnegative). -/
def centroid_of (pts : List (ℕ × ℕ)) : ℕ × ℕ :=
  ((pts.map Prod.fst).sum / pts.length, (pts.map Prod.snd).sum / pts.length)

/-- `get_best_point()` (lines 189–228): pick the largest unselected mask; if
there is none, return the empty result; if the chosen segmentation has no true
pixel, return the empty result without marking; otherwise mark the mask
selected and return its centroid.  Returns the result together with the
updated selection state. -/
def get_best_point (masks : List SamMask) (selected : Finset ℕ) :
    Option (ℕ × ℕ) × Finset ℕ :=
  match find_largest masks selected with
  | none => (none, selected)
  | some p =>
      if true_pixels p.2.segmentation = [] then (none, selected)
      else (some (centroid_of (true_pixels p.2.segmentation)), insert p.1 selected)

/-- The selection state after `k` calls of `get_best_point`, starting from the
empty selection state of a fresh session. -/
def session_state (masks : List SamMask) : ℕ → Finset ℕ
  | 0 => ∅
  | k+1 => (get_best_point masks (session_state masks k)).2

/-- The result of the `(k+1)`-st call of `get_best_point` of a session. -/
def session_result (masks : List SamMask) (k : ℕ) : Option (ℕ × ℕ) :=
  (get_best_point masks (session_state masks k)).1

/-- The mask chosen by the scan during the `(k+1)`-st call of `get_best_point`. -/
def session_choice (masks : List SamMask) (k : ℕ) : Option (ℕ × SamMask) :=
  find_largest masks (session_state masks k)

/-! ### Correctness of the largest-unselected-mask scan -/

/-- Invariant of the `get_best_point` scan after the masks at indices below
`s` have been processed: either every unselected mask seen so far has area 0
(`largest_mask` still `None`), or the accumulator holds the first unselected
mask of maximal positive area among those seen. -/
def good_acc (masks : List SamMask) (selected : Finset ℕ) (s : ℕ) :
    Option (ℕ × SamMask) → Prop
  | none => ∀ j, j < s → j ∉ selected → ∀ m, masks[j]? = some m → m.area = 0
  | some p => p.1 < s ∧ p.1 ∉ selected ∧ masks[p.1]? = some p.2 ∧ 0 < p.2.area ∧
      (∀ j, j < s → j ∉ selected → ∀ m', masks[j]? = some m' → m'.area ≤ p.2.area) ∧
      (∀ j, j < p.1 → j ∉ selected → ∀ m', masks[j]? = some m' → m'.area < p.2.area)

lemma find_largest_aux_spec (masks : List SamMask) (selected : Finset ℕ) :
    ∀ (l : List SamMask) (s : ℕ), masks.drop s = l →
      ∀ best, good_acc masks selected s best →
      good_acc masks selected masks.length
        (find_largest_aux selected (List.enumFrom s l) best) := by
  intro l
  induction l with
  | nil =>
      intro s hdrop best hgood
      have hlen : masks.length ≤ s := by
        have hl := congrArg List.length hdrop
        rw [List.length_drop] at hl
        simp only [List.length_nil] at hl
        omega
      show good_acc masks selected masks.length best
      cases best with
      | none =>
          intro j hj hjs m hm
          exact hgood j (by omega) hjs m hm
      | some p =>
          obtain ⟨h1, h2, h3, h4, h5, h6⟩ := hgood
          have hplen : p.1 < masks.length := by
            by_contra hc
            push_neg at hc
            rw [List.getElem?_eq_none hc] at h3
            cases h3
          exact ⟨hplen, h2, h3, h4,
            fun j hj hjs m' hm' => h5 j (by omega) hjs m' hm', h6⟩
  | cons m rest ih =>
      intro s hdrop best hgood
      have hms : masks[s]? = some m := by
        have h0 : (masks.drop s)[0]? = some m := by rw [hdrop]; simp
        rw [List.getElem?_drop] at h0
        simpa using h0
      have hdrop' : masks.drop (s+1) = rest := by
        have h1 : List.drop 1 (List.drop s masks) = rest := by rw [hdrop]; simp
        rw [List.drop_drop] at h1
        exact h1
      have hub : ∀ j, j < s → j ∉ selected → ∀ m', masks[j]? = some m' →
          m'.area ≤ best_area_of best := by
        cases best with
        | none =>
            intro j hj hjs m' hm'
            have h0 := hgood j hj hjs m' hm'
            simp [best_area_of, h0]
        | some q =>
            exact fun j hj hjs m' hm' => hgood.2.2.2.2.1 j hj hjs m' hm'
      show good_acc masks selected masks.length
        (find_largest_aux selected ((s, m) :: List.enumFrom (s+1) rest) best)
      by_cases hsel : s ∉ selected
      · by_cases harea : best_area_of best < m.area
        · have hstep : find_largest_aux selected
              ((s, m) :: List.enumFrom (s+1) rest) best
              = find_largest_aux selected (List.enumFrom (s+1) rest) (some (s, m)) := by
            simp only [find_largest_aux]
            rw [if_pos hsel, if_pos harea]
          rw [hstep]
          apply ih (s+1) hdrop'
          show s < s + 1 ∧ s ∉ selected ∧ masks[s]? = some m ∧ 0 < m.area ∧
            (∀ j, j < s + 1 → j ∉ selected → ∀ m', masks[j]? = some m' →
              m'.area ≤ m.area) ∧
            (∀ j, j < s → j ∉ selected → ∀ m', masks[j]? = some m' →
              m'.area < m.area)
          refine ⟨by omega, hsel, hms, by omega, ?_, ?_⟩
          · intro j hj hjs m' hm'
            rcases Nat.lt_succ_iff_lt_or_eq.mp hj with h | h
            · exact le_of_lt (lt_of_le_of_lt (hub j h hjs m' hm') harea)
            · subst h
              rw [hms] at hm'
              injection hm' with he
              rw [← he]
          · intro j hj hjs m' hm'
            exact lt_of_le_of_lt (hub j hj hjs m' hm') harea
        · have hstep : find_largest_aux selected
              ((s, m) :: List.enumFrom (s+1) rest) best
              = find_largest_aux selected (List.enumFrom (s+1) rest) best := by
            simp only [find_largest_aux]
            rw [if_pos hsel, if_neg harea]
          rw [hstep]
          apply ih (s+1) hdrop'
          push_neg at harea
          cases best with
          | none =>
              intro j hj hjs m' hm'
              rcases Nat.lt_succ_iff_lt_or_eq.mp hj with h | h
              · exact hgood j h hjs m' hm'
              · subst h
                rw [hms] at hm'
                injection hm' with he
                rw [← he]
                simp only [best_area_of] at harea
                omega
          | some q =>
              obtain ⟨h1, h2, h3, h4, h5, h6⟩ := hgood
              refine ⟨by omega, h2, h3, h4, ?_, h6⟩
              intro j hj hjs m' hm'
              rcases Nat.lt_succ_iff_lt_or_eq.mp hj with h | h
              · exact h5 j h hjs m' hm'
              · subst h
                rw [hms] at hm'
                injection hm' with he
                rw [← he]
                exact harea
      · have hstep : find_largest_aux selected
            ((s, m) :: List.enumFrom (s+1) rest) best
            = find_largest_aux selected (List.enumFrom (s+1) rest) best := by
          simp only [find_largest_aux]
          rw [if_neg hsel]
        rw [hstep]
        apply ih (s+1) hdrop'
        push_neg at hsel
        cases best with
        | none =>
            intro j hj hjs m' hm'
            rcases Nat.lt_succ_iff_lt_or_eq.mp hj with h | h
            · exact hgood j h hjs m' hm'
            · subst h
              exact absurd hsel hjs
        | some q =>
            obtain ⟨h1, h2, h3, h4, h5, h6⟩ := hgood
            refine ⟨by omega, h2, h3, h4, ?_, h6⟩
            intro j hj hjs m' hm'
            rcases Nat.lt_succ_iff_lt_or_eq.mp hj with h | h
            · exact h5 j h hjs m' hm'
            · subst h
              exact absurd hsel hjs

lemma find_largest_spec (masks : List SamMask) (selected : Finset ℕ) :
    good_acc masks selected masks.length (find_largest masks selected) :=
  find_largest_aux_spec masks selected masks 0 (List.drop_zero masks) none
    (fun j hj => absurd hj (Nat.not_lt_zero j))

/-! ### Session lemmas for repeated `get_best_point` calls -/

lemma get_best_point_of_none (masks : List SamMask) (selected : Finset ℕ)
    (h : find_largest masks selected = none) :
    get_best_point masks selected = (none, selected) := by
  unfold get_best_point
  rw [h]

lemma get_best_point_of_some (masks : List SamMask) (selected : Finset ℕ)
    (p : ℕ × SamMask) (h : find_largest masks selected = some p)
    (hpx : true_pixels p.2.segmentation ≠ []) :
    get_best_point masks selected =
      (some (centroid_of (true_pixels p.2.segmentation)), insert p.1 selected) := by
  unfold get_best_point
  rw [h]
  exact if_neg hpx

lemma get_best_point_of_degenerate (masks : List SamMask) (selected : Finset ℕ)
    (p : ℕ × SamMask) (h : find_largest masks selected = some p)
    (hpx : true_pixels p.2.segmentation = []) :
    get_best_point masks selected = (none, selected) := by
  unfold get_best_point
  rw [h]
  exact if_pos hpx

lemma get_best_point_subset (masks : List SamMask) (selected : Finset ℕ) :
    selected ⊆ (get_best_point masks selected).2 := by
  cases h : find_largest masks selected with
  | none =>
      rw [get_best_point_of_none masks selected h]
  | some p =>
      by_cases hpx : true_pixels p.2.segmentation = []
      · rw [get_best_point_of_degenerate masks selected p h hpx]
      · rw [get_best_point_of_some masks selected p h hpx]
        exact Finset.subset_insert _ _

lemma session_state_mono (masks : List SamMask) {k j : ℕ} (h : k ≤ j) :
    session_state masks k ⊆ session_state masks j := by
  induction j, h using Nat.le_induction with
  | base => exact subset_rfl
  | succ n hn ih =>
      exact ih.trans (get_best_point_subset masks (session_state masks n))

lemma session_step (masks : List SamMask) (k : ℕ) (p : ℕ × SamMask)
    (hchoice : session_choice masks k = some p)
    (hpx : true_pixels p.2.segmentation ≠ []) :
    session_state masks (k+1) = insert p.1 (session_state masks k) ∧
    session_result masks k = some (centroid_of (true_pixels p.2.segmentation)) := by
  have h := get_best_point_of_some masks (session_state masks k) p hchoice hpx
  constructor
  · show (get_best_point masks (session_state masks k)).2 = _
    rw [h]
  · show (get_best_point masks (session_state masks k)).1 = _
    rw [h]

lemma find_largest_ne_none (masks : List SamMask) (selected : Finset ℕ)
    (hpos : ∀ m ∈ masks, 0 < m.area)
    (j : ℕ) (hj : j < masks.length) (hjs : j ∉ selected) :
    ∃ p, find_largest masks selected = some p := by
  cases hfl : find_largest masks selected with
  | some p => exact ⟨p, rfl⟩
  | none =>
      exfalso
      have hspec := find_largest_spec masks selected
      rw [hfl] at hspec
      have hm : masks[j]? = some masks[j] := List.getElem?_eq_getElem hj
      have hmem : masks[j] ∈ masks :=
        List.get?_mem (by rw [List.get?_eq_getElem?]; exact hm)
      have h0 := hspec j hj hjs masks[j] hm
      have h1 := hpos masks[j] hmem
      omega

lemma getElem?_some_lt_length (masks : List SamMask) (i : ℕ) (m : SamMask)
    (h : masks[i]? = some m) : i < masks.length := by
  by_contra hc
  push_neg at hc
  rw [List.getElem?_eq_none hc] at h
  cases h

lemma getElem?_some_mem (masks : List SamMask) (i : ℕ) (m : SamMask)
    (h : masks[i]? = some m) : m ∈ masks :=
  List.get?_mem (by rw [List.get?_eq_getElem?]; exact h)

lemma session_invariant (masks : List SamMask)
    (hpos : ∀ m ∈ masks, 0 < m.area)
    (hnd : ∀ m ∈ masks, true_pixels m.segmentation ≠ []) :
    ∀ k, k ≤ masks.length →
      (session_state masks k).card = k ∧
      session_state masks k ⊆ Finset.range masks.length := by
  intro k
  induction k with
  | zero =>
      intro _
      exact ⟨rfl, Finset.empty_subset _⟩
  | succ n ih =>
      intro hk
      obtain ⟨hcard, hsub⟩ := ih (by omega)
      have hne : session_state masks n ≠ Finset.range masks.length := by
        intro he
        rw [he, Finset.card_range] at hcard
        omega
      obtain ⟨j, hjr, hjns⟩ := Finset.exists_of_ssubset (hsub.ssubset_of_ne hne)
      have hjlt : j < masks.length := Finset.mem_range.mp hjr
      obtain ⟨p, hp⟩ :=
        find_largest_ne_none masks (session_state masks n) hpos j hjlt hjns
      have hspec := find_largest_spec masks (session_state masks n)
      rw [hp] at hspec
      obtain ⟨hp1, hp2, hp3, hp4, hp5, hp6⟩ := hspec
      have hmem : p.2 ∈ masks := getElem?_some_mem masks p.1 p.2 hp3
      obtain ⟨hstate, hres⟩ := session_step masks n p hp (hnd p.2 hmem)
      constructor
      · rw [hstate, Finset.card_insert_of_not_mem hp2, hcard]
      · rw [hstate]
        intro x hx
        rcases Finset.mem_insert.mp hx with h | h
        · subst h
          exact Finset.mem_range.mpr (getElem?_some_lt_length masks p.1 p.2 hp3)
        · exact hsub h

lemma find_largest_of_full (masks : List SamMask) :
    find_largest masks (Finset.range masks.length) = none := by
  cases hfl : find_largest masks (Finset.range masks.length) with
  | none => rfl
  | some p =>
      exfalso
      have hspec := find_largest_spec masks (Finset.range masks.length)
      rw [hfl] at hspec
      obtain ⟨-, hp2, hp3, -, -, -⟩ := hspec
      exact hp2 (Finset.mem_range.mpr (getElem?_some_lt_length masks p.1 p.2 hp3))

lemma session_exhausted (masks : List SamMask)
    (hpos : ∀ m ∈ masks, 0 < m.area)
    (hnd : ∀ m ∈ masks, true_pixels m.segmentation ≠ []) :
    ∀ k, masks.length ≤ k →
      session_state masks k = Finset.range masks.length ∧
      session_choice masks k = none ∧ session_result masks k = none := by
  intro k hk
  induction k, hk using Nat.le_induction with
  | base =>
      have h := session_invariant masks hpos hnd masks.length le_rfl
      have hcards : (Finset.range masks.length).card ≤
          (session_state masks masks.length).card := by
        rw [Finset.card_range, h.1]
      have hSn : session_state masks masks.length = Finset.range masks.length :=
        Finset.eq_of_subset_of_card_le h.2 hcards
      refine ⟨hSn, ?_, ?_⟩
      · show find_largest masks (session_state masks masks.length) = none
        rw [hSn]
        exact find_largest_of_full masks
      · show (get_best_point masks (session_state masks masks.length)).1 = none
        rw [hSn, get_best_point_of_none masks _ (find_largest_of_full masks)]
  | succ n hn ihn =>
      obtain ⟨hstate, hchoice, -⟩ := ihn
      have hstate' : session_state masks (n+1) = Finset.range masks.length := by
        show (get_best_point masks (session_state masks n)).2 = _
        rw [get_best_point_of_none masks _ hchoice]
        exact hstate
      refine ⟨hstate', ?_, ?_⟩
      · show find_largest masks (session_state masks (n+1)) = none
        rw [hstate']
        exact find_largest_of_full masks
      · show (get_best_point masks (session_state masks (n+1))).1 = none
        rw [hstate', get_best_point_of_none masks _ (find_largest_of_full masks)]

/-! ### Claim theorems for the inventory -/

/-- The inventory of the spec's example, with areas 50, 200, 10. -/
def example_masks : List SamMask :=
  [⟨50, [[true]]⟩, ⟨200, [[true]]⟩, ⟨10, [[true]]⟩]

/-- C7: on an inventory of masks with positive areas and non-degenerate
segmentations, every one of the first `n` calls of `get_best_point` succeeds
and marks its chosen mask; chosen masks are pairwise distinct and their areas
non-increasing (ties broken towards the earlier storage index); after all `n`
masks are consumed every further call returns the empty result; and on the
example inventory with areas [50, 200, 10] the chosen areas are 200, 50, 10
followed by the empty result on the fourth call. -/
theorem get_best_point_session (masks : List SamMask)
    (hpos : ∀ m ∈ masks, 0 < m.area)
    (hnd : ∀ m ∈ masks, true_pixels m.segmentation ≠ []) :
    (∀ k, k < masks.length → ∃ p : ℕ × SamMask,
        session_choice masks k = some p ∧ masks[p.1]? = some p.2 ∧
        p.1 ∉ session_state masks k ∧
        session_state masks (k+1) = insert p.1 (session_state masks k) ∧
        session_result masks k = some (centroid_of (true_pixels p.2.segmentation)) ∧
        (∀ j, j < masks.length → j ∉ session_state masks k →
          ∀ m', masks[j]? = some m' → m'.area ≤ p.2.area) ∧
        (∀ j, j < p.1 → j ∉ session_state masks k →
          ∀ m', masks[j]? = some m' → m'.area < p.2.area)) ∧
    (∀ k j p q, k < j → session_choice masks k = some p →
        session_choice masks j = some q → p.1 ≠ q.1 ∧ q.2.area ≤ p.2.area) ∧
    (∀ k, masks.length ≤ k →
        session_result masks k = none ∧ session_choice masks k = none) ∧
    ((session_choice example_masks 0).map (fun p => p.2.area) = some 200 ∧
     (session_choice example_masks 1).map (fun p => p.2.area) = some 50 ∧
     (session_choice example_masks 2).map (fun p => p.2.area) = some 10 ∧
     session_result example_masks 0 ≠ none ∧
     session_result example_masks 1 ≠ none ∧
     session_result example_masks 2 ≠ none ∧
     session_result example_masks 3 = none) := by
  refine ⟨?_, ?_, ?_, by decide⟩
  · intro k hk
    obtain ⟨hcard, hsub⟩ := session_invariant masks hpos hnd k (by omega)
    have hne : session_state masks k ≠ Finset.range masks.length := by
      intro he
      rw [he, Finset.card_range] at hcard
      omega
    obtain ⟨j, hjr, hjns⟩ := Finset.exists_of_ssubset (hsub.ssubset_of_ne hne)
    obtain ⟨p, hp⟩ := find_largest_ne_none masks (session_state masks k) hpos j
      (Finset.mem_range.mp hjr) hjns
    have hspec := find_largest_spec masks (session_state masks k)
    rw [hp] at hspec
    obtain ⟨hp1, hp2, hp3, hp4, hp5, hp6⟩ := hspec
    have hmem : p.2 ∈ masks := getElem?_some_mem masks p.1 p.2 hp3
    obtain ⟨hstate, hres⟩ := session_step masks k p hp (hnd p.2 hmem)
    exact ⟨p, hp, hp3, hp2, hstate, hres, hp5, hp6⟩
  · intro k j p q hkj hpk hqj
    unfold session_choice at hpk hqj
    have hspecj := find_largest_spec masks (session_state masks j)
    rw [hqj] at hspecj
    obtain ⟨-, hq2, hq3, -, -, -⟩ := hspecj
    have hspeck := find_largest_spec masks (session_state masks k)
    rw [hpk] at hspeck
    obtain ⟨-, hp2, hp3, -, hp5, -⟩ := hspeck
    have hmemp : p.2 ∈ masks := getElem?_some_mem masks p.1 p.2 hp3
    obtain ⟨hstate, -⟩ := session_step masks k p hpk (hnd p.2 hmemp)
    have hpin : p.1 ∈ session_state masks j := by
      have h1 : p.1 ∈ session_state masks (k+1) := by
        rw [hstate]
        exact Finset.mem_insert_self _ _
      exact session_state_mono masks (by omega : k+1 ≤ j) h1
    have hqnotk : q.1 ∉ session_state masks k := fun hc =>
      hq2 (session_state_mono masks (by omega : k ≤ j) hc)
    have hqlt : q.1 < masks.length := getElem?_some_lt_length masks q.1 q.2 hq3
    constructor
    · intro he
      rw [he] at hpin
      exact hq2 hpin
    · exact hp5 q.1 hqlt hqnotk q.2 hq3
  · intro k hk
    exact ⟨(session_exhausted masks hpos hnd k hk).2.2,
           (session_exhausted masks hpos hnd k hk).2.1⟩

/-- Witness for C7 at the example inventory (areas 50, 200, 10). -/
theorem get_best_point_session_witness :
    (∀ m ∈ example_masks, 0 < m.area) ∧
    (∀ k, example_masks.length ≤ k →
      session_result example_masks k = none ∧
      session_choice example_masks k = none) :=
  ⟨by decide, (get_best_point_session example_masks (by decide) (by decide)).2.2.1⟩

/-- The degenerate inventory: area metadata 5 but an all-false segmentation. -/
def degenerate_inventory : List SamMask := [⟨5, [[false]]⟩]

/-- C8 (code-bug evidence): when the chosen largest mask has no true pixel,
`get_best_point` returns the empty result but does NOT mark the mask selected,
so the very next call chooses the same degenerate mask again — contradicting
the requirement that such a mask is never re-offered. -/
theorem get_best_point_degenerate_reoffered :
    session_choice degenerate_inventory 0 = some (0, ⟨5, [[false]]⟩) ∧
    session_result degenerate_inventory 0 = none ∧
    session_state degenerate_inventory 1 = session_state degenerate_inventory 0 ∧
    session_choice degenerate_inventory 1 = some (0, ⟨5, [[false]]⟩) := by
  decide

/-! ### Centroid bounds -/

lemma row_pixels_mem (r : ℕ) :
    ∀ (c : ℕ) (row : List Bool) (p : ℕ × ℕ), p ∈ row_pixels r c row →
      p.1 = r ∧ c ≤ p.2 ∧ p.2 < c + row.length := by
  intro c row
  induction row generalizing c with
  | nil =>
      intro p hp
      cases hp
  | cons b bs ih =>
      intro p hp
      by_cases hb : b = true
      · rw [row_pixels, if_pos hb] at hp
        rcases List.mem_cons.mp hp with h | h
        · subst h
          exact ⟨rfl, le_rfl, by simp⟩
        · obtain ⟨h1, h2, h3⟩ := ih (c+1) p h
          exact ⟨h1, by omega, by simp only [List.length_cons]; omega⟩
      · rw [row_pixels, if_neg hb] at hp
        obtain ⟨h1, h2, h3⟩ := ih (c+1) p hp
        exact ⟨h1, by omega, by simp only [List.length_cons]; omega⟩

lemma true_pixels_from_mem :
    ∀ (seg : BMask) (r : ℕ) (p : ℕ × ℕ), p ∈ true_pixels_from r seg →
      r ≤ p.1 ∧ p.1 < r + seg.length ∧ ∃ row ∈ seg, p.2 < row.length := by
  intro seg
  induction seg with
  | nil =>
      intro r p hp
      cases hp
  | cons row rest ih =>
      intro r p hp
      rw [true_pixels_from] at hp
      rcases List.mem_append.mp hp with h | h
      · obtain ⟨h1, h2, h3⟩ := row_pixels_mem r 0 row p h
        refine ⟨by omega, by simp only [List.length_cons]; omega, ?_⟩
        exact ⟨row, List.mem_cons_self row rest, by omega⟩
      · obtain ⟨h1, h2, ⟨rw', hrw, hlt⟩⟩ := ih (r+1) p h
        refine ⟨by omega, by simp only [List.length_cons]; omega, ?_⟩
        exact ⟨rw', List.mem_cons_of_mem row hrw, hlt⟩

lemma true_pixels_mem (seg : BMask) (p : ℕ × ℕ) (hp : p ∈ true_pixels seg) :
    p.1 < seg.length ∧ ∃ row ∈ seg, p.2 < row.length := by
  obtain ⟨h1, h2, h3⟩ := true_pixels_from_mem seg 0 p hp
  exact ⟨by omega, h3⟩

lemma sum_div_length_le (xs : List ℕ) (hne : xs ≠ []) (b : ℕ)
    (hb : ∀ x ∈ xs, x ≤ b) : xs.sum / xs.length ≤ b := by
  have hlen : 0 < xs.length := List.length_pos.mpr hne
  have hsum : xs.sum ≤ xs.length * b := by
    have h := List.sum_le_card_nsmul xs b hb
    simpa [smul_eq_mul] using h
  calc xs.sum / xs.length ≤ xs.length * b / xs.length := Nat.div_le_div_right hsum
    _ = b := Nat.mul_div_cancel_left b hlen

lemma le_sum_div_length (xs : List ℕ) (hne : xs ≠ []) (b : ℕ)
    (hb : ∀ x ∈ xs, b ≤ x) : b ≤ xs.sum / xs.length := by
  have hlen : 0 < xs.length := List.length_pos.mpr hne
  have hsum : xs.length * b ≤ xs.sum := by
    have h := List.card_nsmul_le_sum xs b hb
    simpa [smul_eq_mul] using h
  have h2 : xs.length * b / xs.length ≤ xs.sum / xs.length :=
    Nat.div_le_div_right hsum
  rwa [Nat.mul_div_cancel_left b hlen] at h2

/-- C10: whenever `get_best_point` returns a centroid `(r, c)`, the
coordinates lie within the chosen mask's true-pixel bounding box (every lower
or upper bound of the true-pixel rows bounds `r`, likewise for the columns),
and for an `H×W` segmentation grid the centroid is a valid pixel coordinate:
`r < H` and `c < W`. -/
theorem get_best_point_centroid_in_bounds (masks : List SamMask)
    (selected : Finset ℕ) (r c : ℕ) (st : Finset ℕ)
    (hcall : get_best_point masks selected = (some (r, c), st))
    (H W : ℕ)
    (hH : ∀ m ∈ masks, m.segmentation.length = H)
    (hW : ∀ m ∈ masks, ∀ row ∈ m.segmentation, row.length = W) :
    ∃ p : ℕ × SamMask,
      find_largest masks selected = some p ∧ masks[p.1]? = some p.2 ∧
      true_pixels p.2.segmentation ≠ [] ∧
      (r, c) = centroid_of (true_pixels p.2.segmentation) ∧
      (∀ b, (∀ q ∈ true_pixels p.2.segmentation, b ≤ q.1) → b ≤ r) ∧
      (∀ b, (∀ q ∈ true_pixels p.2.segmentation, q.1 ≤ b) → r ≤ b) ∧
      (∀ b, (∀ q ∈ true_pixels p.2.segmentation, b ≤ q.2) → b ≤ c) ∧
      (∀ b, (∀ q ∈ true_pixels p.2.segmentation, q.2 ≤ b) → c ≤ b) ∧
      r < H ∧ c < W := by
  cases hfl : find_largest masks selected with
  | none =>
      rw [get_best_point_of_none masks selected hfl] at hcall
      cases hcall
  | some p =>
      by_cases hpx : true_pixels p.2.segmentation = []
      · rw [get_best_point_of_degenerate masks selected p hfl hpx] at hcall
        cases hcall
      · rw [get_best_point_of_some masks selected p hfl hpx] at hcall
        have h1 : some (centroid_of (true_pixels p.2.segmentation)) = some (r, c) :=
          congrArg Prod.fst hcall
        have hrc : centroid_of (true_pixels p.2.segmentation) = (r, c) :=
          Option.some.inj h1
        have hr : ((true_pixels p.2.segmentation).map Prod.fst).sum /
            (true_pixels p.2.segmentation).length = r := congrArg Prod.fst hrc
        have hcol : ((true_pixels p.2.segmentation).map Prod.snd).sum /
            (true_pixels p.2.segmentation).length = c := congrArg Prod.snd hrc
        have hspec := find_largest_spec masks selected
        rw [hfl] at hspec
        obtain ⟨-, -, hp3, -, -, -⟩ := hspec
        have hmem : p.2 ∈ masks := getElem?_some_mem masks p.1 p.2 hp3
        have hfne : (true_pixels p.2.segmentation).map Prod.fst ≠ [] :=
          fun h => hpx (List.map_eq_nil_iff.mp h)
        have hsne : (true_pixels p.2.segmentation).map Prod.snd ≠ [] :=
          fun h => hpx (List.map_eq_nil_iff.mp h)
        have hrow_lo : ∀ b, (∀ q ∈ true_pixels p.2.segmentation, b ≤ q.1) → b ≤ r := by
          intro b hb
          have hball : ∀ x ∈ (true_pixels p.2.segmentation).map Prod.fst, b ≤ x := by
            intro x hx
            obtain ⟨q, hq, rfl⟩ := List.mem_map.mp hx
            exact hb q hq
          have h := le_sum_div_length _ hfne b hball
          rwa [List.length_map, hr] at h
        have hrow_hi : ∀ b, (∀ q ∈ true_pixels p.2.segmentation, q.1 ≤ b) → r ≤ b := by
          intro b hb
          have hball : ∀ x ∈ (true_pixels p.2.segmentation).map Prod.fst, x ≤ b := by
            intro x hx
            obtain ⟨q, hq, rfl⟩ := List.mem_map.mp hx
            exact hb q hq
          have h := sum_div_length_le _ hfne b hball
          rwa [List.length_map, hr] at h
        have hcol_lo : ∀ b, (∀ q ∈ true_pixels p.2.segmentation, b ≤ q.2) → b ≤ c := by
          intro b hb
          have hball : ∀ x ∈ (true_pixels p.2.segmentation).map Prod.snd, b ≤ x := by
            intro x hx
            obtain ⟨q, hq, rfl⟩ := List.mem_map.mp hx
            exact hb q hq
          have h := le_sum_div_length _ hsne b hball
          rwa [List.length_map, hcol] at h
        have hcol_hi : ∀ b, (∀ q ∈ true_pixels p.2.segmentation, q.2 ≤ b) → c ≤ b := by
          intro b hb
          have hball : ∀ x ∈ (true_pixels p.2.segmentation).map Prod.snd, x ≤ b := by
            intro x hx
            obtain ⟨q, hq, rfl⟩ := List.mem_map.mp hx
            exact hb q hq
          have h := sum_div_length_le _ hsne b hball
          rwa [List.length_map, hcol] at h
        have hrowH : ∀ q ∈ true_pixels p.2.segmentation, q.1 < H := by
          intro q hq
          have h := (true_pixels_mem p.2.segmentation q hq).1
          rwa [hH p.2 hmem] at h
        have hcolW : ∀ q ∈ true_pixels p.2.segmentation, q.2 < W := by
          intro q hq
          obtain ⟨-, row, hrowmem, hlt⟩ := true_pixels_mem p.2.segmentation q hq
          rwa [hW p.2 hmem row hrowmem] at hlt
        obtain ⟨q0, hq0⟩ := List.exists_mem_of_ne_nil _ hpx
        have hHpos : 0 < H := lt_of_le_of_lt (Nat.zero_le _) (hrowH q0 hq0)
        have hWpos : 0 < W := lt_of_le_of_lt (Nat.zero_le _) (hcolW q0 hq0)
        have hrH : r < H := by
          have h := hrow_hi (H - 1) (fun q hq => by have := hrowH q hq; omega)
          omega
        have hcW : c < W := by
          have h := hcol_hi (W - 1) (fun q hq => by have := hcolW q hq; omega)
          omega
        exact ⟨p, rfl, hp3, hpx, hrc.symm, hrow_lo, hrow_hi, hcol_lo, hcol_hi, hrH, hcW⟩

/-- Witness for C10: a 1×1 inventory whose single mask is the whole image. -/
theorem get_best_point_centroid_in_bounds_witness :
    get_best_point [⟨1, [[true]]⟩] ∅ = (some (0, 0), {0}) ∧
    (∃ p : ℕ × SamMask,
      find_largest [⟨1, [[true]]⟩] ∅ = some p ∧
      ([⟨1, [[true]]⟩] : List SamMask)[p.1]? = some p.2 ∧
      true_pixels p.2.segmentation ≠ [] ∧
      ((0:ℕ), (0:ℕ)) = centroid_of (true_pixels p.2.segmentation) ∧
      (∀ b, (∀ q ∈ true_pixels p.2.segmentation, b ≤ q.1) → b ≤ 0) ∧
      (∀ b, (∀ q ∈ true_pixels p.2.segmentation, q.1 ≤ b) → 0 ≤ b) ∧
      (∀ b, (∀ q ∈ true_pixels p.2.segmentation, b ≤ q.2) → b ≤ 0) ∧
      (∀ b, (∀ q ∈ true_pixels p.2.segmentation, q.2 ≤ b) → 0 ≤ b) ∧
      0 < 1 ∧ 0 < 1) :=
  ⟨by decide,
   get_best_point_centroid_in_bounds [⟨1, [[true]]⟩] ∅ 0 0 {0} (by decide) 1 1
     (by decide) (by decide)⟩
